import Mathlib

/-!
# Verification of `reachability_viz.py`

A shallow embedding of the core pipeline of `reachability_viz.py`:
text scanning (`parse_source_text`), edge-status classification
(`extract_status`), bidirectional-edge merging (`merge_bidirectional_edges`),
adjacency construction (`build_adjacency`), depth-bounded multi-directional
BFS (`bfs_levels`), level partitioning (`split_levels`), start-node
resolution (`resolve_start_node`) and the per-edge attribute computation of
`generate_dot`.

Modelling conventions:
* Python strings are `List Char`; `str.strip` / `str.upper` / `str.lower` /
  `str.split` are modelled character-wise (`pyStrip`, `pyUpper`, `pyLower`,
  `pySplit`).  This matches CPython on the ASCII data this tool handles.
* Python `set`s of node ids are `Finset ℕ`.  Where the code linearises a set
  (`list(group)` in `split_levels`), the embedding linearises in ascending
  id order, the iteration order CPython produces for the small-integer sets
  arising here.
* Python `dict`s keyed by node id are association lists in insertion order,
  or functions built with last-write-wins semantics.
* Machine integers are `ℤ` / `ℕ` (the script never overflows or relies on
  fixed width).
* A raised `ValueError` is modelled as `Option.none`.
-/

/-! ## Python string primitives -/

/-- Python `str.strip()`: drop whitespace from both ends. -/
def pyStrip (l : List Char) : List Char :=
  ((l.dropWhile Char.isWhitespace).reverse.dropWhile Char.isWhitespace).reverse

/-- Python `str.upper()` (ASCII range, the only one this tool meets). -/
def pyUpper (l : List Char) : List Char := l.map Char.toUpper

/-- Python `str.lower()` (ASCII range). -/
def pyLower (l : List Char) : List Char := l.map Char.toLower

/-- Python `str.split(sep)` for a one-character separator. -/
def pySplit (sep : Char) : List Char → List (List Char)
  | [] => [[]]
  | c :: cs =>
    if c = sep then [] :: pySplit sep cs
    else
      match pySplit sep cs with
      | [] => [[c]]
      | p :: ps => (c :: p) :: ps

theorem pySplit_ne_nil (sep : Char) (l : List Char) : pySplit sep l ≠ [] := by
  cases l with
  | nil => simp [pySplit]
  | cons c cs =>
    simp only [pySplit]
    split
    · simp
    · split <;> simp

/-- Splitting on a separator absent from the string yields the string alone. -/
theorem pySplit_of_not_mem (sep : Char) (l : List Char) (h : sep ∉ l) :
    pySplit sep l = [l] := by
  induction l with
  | nil => rfl
  | cons c cs ih =>
    simp only [List.mem_cons, not_or] at h
    simp only [pySplit, ih h.2]
    rw [if_neg (Ne.symm h.1)]

/-- Splitting at the first separator: everything before it is the head part. -/
theorem pySplit_append (sep : Char) (s t : List Char) (h : sep ∉ s) :
    pySplit sep (s ++ sep :: t) = s :: pySplit sep t := by
  induction s with
  | nil => simp [pySplit]
  | cons c cs ih =>
    simp only [List.mem_cons, not_or] at h
    simp only [List.cons_append, pySplit, List.append_eq]
    rw [if_neg (Ne.symm h.1), ih h.2]

/-! ## Edge classifier (`extract_status`, source lines 33–41) -/

/-- `first.startswith(c)` for a single character `c`. -/
def firstCharIs (c : Char) : List Char → Bool
  | [] => false
  | x :: _ => x == c

/-- The `if`-chain of source lines 38–41: classify by the leading character of
the (already stripped and upper-cased) first label segment. -/
def statusOfFirst (first : List Char) : Char :=
  if firstCharIs 'S' first then 'S'
  else if firstCharIs 'D' first then 'D'
  else if firstCharIs 'E' first then 'E'
  else 'E'

/-- `extract_status` (source lines 33–41): empty labels are Enabled;
otherwise split on `|`, strip the parts, upper-case the first and classify
by its leading character. -/
def extract_status (raw_label : List Char) : Char :=
  if raw_label = [] then 'E'
  else
    statusOfFirst (pyUpper (((pySplit '|' raw_label).map pyStrip).headD []))

/-- The first `|`-delimited segment of a label. -/
def firstSegment (l : List Char) : List Char := (pySplit '|' l).headD []

theorem headD_map_pyStrip (l : List (List Char)) (h : l ≠ []) :
    (l.map pyStrip).headD [] = pyStrip (l.headD []) := by
  cases l with
  | nil => exact absurd rfl h
  | cons a as => rfl

/-- `extract_status` factors through the upper-cased, stripped first segment
(the empty-label special case agrees with the generic branch). -/
theorem extract_status_eq_statusOfFirst (l : List Char) :
    extract_status l = statusOfFirst (pyUpper (pyStrip (firstSegment l))) := by
  by_cases h : l = []
  · subst h; rfl
  · rw [extract_status, if_neg h,
      headD_map_pyStrip _ (pySplit_ne_nil '|' l)]
    rfl

/-! ## Edge model and bidirectional merger (source lines 44–59) -/

/-- A parsed edge record: `{"src": ..., "dst": ..., "raw_label": ..., "status": ...}`. -/
structure Edge where
  src : ℕ
  dst : ℕ
  raw_label : List Char
  status : Char
deriving DecidableEq, Repr

/-- A merged edge record, carrying the `"bidirectional"` flag. -/
structure BEdge where
  src : ℕ
  dst : ℕ
  raw_label : List Char
  status : Char
  bidirectional : Bool
deriving DecidableEq, Repr

/-- `tuple(sorted([s, d]))` — the unordered key of a node pair. -/
def ekey (s d : ℕ) : ℕ × ℕ := (min s d, max s d)

def Edge.key (e : Edge) : ℕ × ℕ := ekey e.src e.dst

def BEdge.key (b : BEdge) : ℕ × ℕ := ekey b.src b.dst

/-- `other["bidirectional"] = True` applied to an entry. -/
def setFlag (b : BEdge) : BEdge := { b with bidirectional := true }

/-- One iteration of the loop in `merge_bidirectional_edges`: if the unordered
key was already seen, flag the (unique) stored entry; otherwise append a copy
of the edge with the flag cleared. -/
def mergeStep (acc : List BEdge) (e : Edge) : List BEdge :=
  if acc.any (fun b => b.key == e.key) then
    acc.map (fun b => if b.key == e.key then setFlag b else b)
  else
    acc ++ [⟨e.src, e.dst, e.raw_label, e.status, false⟩]

/-- `merge_bidirectional_edges` (source lines 44–59). -/
def merge_bidirectional_edges (edges : List Edge) : List BEdge :=
  edges.foldl mergeStep []

/-! ## Adjacency builder (source lines 61–67) -/

/-- `build_adjacency`: forward and reverse adjacency sets, with the
`defaultdict` convention that an absent key maps to the empty set. -/
def build_adjacency (edges : List Edge) : (ℕ → Finset ℕ) × (ℕ → Finset ℕ) :=
  (fun u => ((edges.filter (fun e => e.src == u)).map Edge.dst).toFinset,
   fun v => ((edges.filter (fun e => e.dst == v)).map Edge.src).toFinset)

/-! ## Neighborhood extractor (`bfs_levels`, source lines 69–90) -/

/-- The `--direction` argument: `'out'`, `'in'` (keyword in Lean, hence
`inward`) or `'both'`. -/
inductive Direction where
  | out
  | inward
  | both
deriving DecidableEq, Repr

/-- The `neighbors` closure of `bfs_levels`: outgoing, incoming, or both. -/
def neighbors (out_adj in_adj : ℕ → Finset ℕ) : Direction → ℕ → Finset ℕ
  | .out, u => out_adj u
  | .inward, u => in_adj u
  | .both, u => out_adj u ∪ in_adj u

/-- All neighbors of a set of nodes. -/
def stepSet (N : ℕ → Finset ℕ) (s : Finset ℕ) : Finset ℕ := s.biUnion N

/-- The `for _ in range(depth)` loop of `bfs_levels`.  Each round collects the
frontier's not-yet-visited neighbors; an empty round breaks without appending
a level.  Returns the appended levels and the final visited set. -/
def bfsLoop (N : ℕ → Finset ℕ) : ℕ → Finset ℕ → Finset ℕ → List (Finset ℕ) × Finset ℕ
  | 0, _, visited => ([], visited)
  | fuel + 1, frontier, visited =>
    let nxt := stepSet N frontier \ visited
    if nxt = ∅ then ([], visited)
    else
      let r := bfsLoop N fuel nxt (visited ∪ nxt)
      (nxt :: r.1, r.2)

/-- `bfs_levels` (source lines 69–90): clamp a negative depth to `0`
(`Int.toNat`), seed level `0`, frontier and visited with `{start}`, then run
the bounded loop. -/
def bfs_levels (start : ℕ) (depth : ℤ) (out_adj in_adj : ℕ → Finset ℕ)
    (dir : Direction) : List (Finset ℕ) × Finset ℕ :=
  let N := neighbors out_adj in_adj dir
  let r := bfsLoop N depth.toNat {start} {start}
  ({start} :: r.1, r.2)

/-! ## Reference notions: balls, spheres and walks of the neighbor relation -/

/-- Nodes reachable from `start` in at most `k` steps of `N`. -/
def ball (N : ℕ → Finset ℕ) (start : ℕ) : ℕ → Finset ℕ
  | 0 => {start}
  | k + 1 => ball N start k ∪ stepSet N (ball N start k)

/-- Nodes at BFS distance exactly `k` from `start`: reachable in `k` steps
but not in fewer. -/
def sphere (N : ℕ → Finset ℕ) (start : ℕ) : ℕ → Finset ℕ
  | 0 => {start}
  | k + 1 => ball N start (k + 1) \ ball N start k

/-- Endpoints of walks of length exactly `k` from `start`. -/
def ballExact (N : ℕ → Finset ℕ) (start : ℕ) : ℕ → Finset ℕ
  | 0 => {start}
  | k + 1 => stepSet N (ballExact N start k)

/-- There is a walk (a path in the claim's sense: a sequence of permitted
edges) of length exactly `k` from `start` to `x`. -/
def hasWalk (N : ℕ → Finset ℕ) (start : ℕ) : ℕ → ℕ → Prop
  | 0, x => x = start
  | k + 1, x => ∃ y, hasWalk N start k y ∧ x ∈ N y

/-! ## BFS lemmas: the loop computes the spheres of the neighbor relation -/

theorem stepSet_mono {N : ℕ → Finset ℕ} {s t : Finset ℕ} (h : s ⊆ t) :
    stepSet N s ⊆ stepSet N t :=
  Finset.biUnion_subset_biUnion_of_subset_left N h

theorem stepSet_union (N : ℕ → Finset ℕ) (s t : Finset ℕ) :
    stepSet N (s ∪ t) = stepSet N s ∪ stepSet N t := by
  ext x
  simp only [stepSet, Finset.mem_biUnion, Finset.mem_union]
  constructor
  · rintro ⟨a, ha | ha, hx⟩
    · exact Or.inl ⟨a, ha, hx⟩
    · exact Or.inr ⟨a, ha, hx⟩
  · rintro (⟨a, ha, hx⟩ | ⟨a, ha, hx⟩)
    · exact ⟨a, Or.inl ha, hx⟩
    · exact ⟨a, Or.inr ha, hx⟩

theorem ball_succ (N : ℕ → Finset ℕ) (s : ℕ) (k : ℕ) :
    ball N s (k + 1) = ball N s k ∪ stepSet N (ball N s k) := rfl

theorem ball_subset_succ (N : ℕ → Finset ℕ) (s : ℕ) (k : ℕ) :
    ball N s k ⊆ ball N s (k + 1) :=
  Finset.subset_union_left

theorem ball_mono (N : ℕ → Finset ℕ) (s : ℕ) {j k : ℕ} (h : j ≤ k) :
    ball N s j ⊆ ball N s k := by
  induction k with
  | zero => cases Nat.le_zero.mp h; exact subset_rfl
  | succ k ih =>
    rcases Nat.lt_or_ge j (k + 1) with hlt | hge
    · exact (ih (Nat.lt_succ_iff.mp hlt)).trans (ball_subset_succ N s k)
    · cases Nat.le_antisymm h hge; exact subset_rfl

theorem sphere_succ (N : ℕ → Finset ℕ) (s : ℕ) (k : ℕ) :
    sphere N s (k + 1) = ball N s (k + 1) \ ball N s k := rfl

theorem sphere_subset_ball (N : ℕ → Finset ℕ) (s : ℕ) (k : ℕ) :
    sphere N s k ⊆ ball N s k := by
  cases k with
  | zero => exact subset_rfl
  | succ k => exact Finset.sdiff_subset

theorem ball_union_sphere (N : ℕ → Finset ℕ) (s : ℕ) (k : ℕ) :
    ball N s k ∪ sphere N s (k + 1) = ball N s (k + 1) := by
  rw [sphere_succ]
  exact Finset.union_sdiff_of_subset (ball_subset_succ N s k)

theorem stepSet_ball_subset (N : ℕ → Finset ℕ) (s : ℕ) (k : ℕ) :
    stepSet N (ball N s k) ⊆ ball N s (k + 1) := by
  rw [ball_succ]; exact Finset.subset_union_right

/-- The frontier update of BFS: the unvisited neighbors of the sphere at
distance `k` are exactly the sphere at distance `k + 1`. -/
theorem stepSet_sphere_sdiff (N : ℕ → Finset ℕ) (s : ℕ) (k : ℕ) :
    stepSet N (sphere N s k) \ ball N s k = sphere N s (k + 1) := by
  cases k with
  | zero =>
    rw [sphere_succ, ball_succ, Finset.union_sdiff_left]
    rfl
  | succ k =>
    apply Finset.Subset.antisymm
    · rw [sphere_succ]
      apply Finset.sdiff_subset_sdiff _ subset_rfl
      exact (stepSet_mono (sphere_subset_ball N s (k + 1))).trans
        (stepSet_ball_subset N s (k + 1))
    · intro x hx
      rw [sphere_succ, Finset.mem_sdiff] at hx
      rw [Finset.mem_sdiff]
      refine ⟨?_, hx.2⟩
      have hx1 : x ∈ stepSet N (ball N s (k + 1)) := by
        rcases Finset.mem_union.mp (by rw [← ball_succ]; exact hx.1) with h | h
        · exact absurd h hx.2
        · exact h
      rw [← ball_union_sphere N s k, stepSet_union, Finset.mem_union] at hx1
      rcases hx1 with h | h
      · exact absurd (stepSet_ball_subset N s k h) hx.2
      · exact h

/-- Unfolding equation for one round of the BFS loop. -/
theorem bfsLoop_succ (N : ℕ → Finset ℕ) (fuel : ℕ) (frontier visited : Finset ℕ) :
    bfsLoop N (fuel + 1) frontier visited =
      if stepSet N frontier \ visited = ∅ then ([], visited)
      else
        ((stepSet N frontier \ visited) ::
            (bfsLoop N fuel (stepSet N frontier \ visited)
              (visited ∪ (stepSet N frontier \ visited))).1,
          (bfsLoop N fuel (stepSet N frontier \ visited)
            (visited ∪ (stepSet N frontier \ visited))).2) := by
  rw [bfsLoop]

/-- Started on the sphere/ball pair at distance `k`, a nonempty round steps
to the pair at distance `k + 1`. -/
theorem bfsLoop_sphere_succ (N : ℕ → Finset ℕ) (s : ℕ) (fuel k : ℕ)
    (h : sphere N s (k + 1) ≠ ∅) :
    bfsLoop N (fuel + 1) (sphere N s k) (ball N s k) =
      ((sphere N s (k + 1)) ::
          (bfsLoop N fuel (sphere N s (k + 1)) (ball N s (k + 1))).1,
        (bfsLoop N fuel (sphere N s (k + 1)) (ball N s (k + 1))).2) := by
  rw [bfsLoop_succ, stepSet_sphere_sdiff, if_neg h, ball_union_sphere]

theorem bfsLoop_sphere_empty (N : ℕ → Finset ℕ) (s : ℕ) (fuel k : ℕ)
    (h : sphere N s (k + 1) = ∅) :
    bfsLoop N (fuel + 1) (sphere N s k) (ball N s k) = ([], ball N s k) := by
  rw [bfsLoop_succ, stepSet_sphere_sdiff, if_pos h]

/-- The levels the loop appends are the consecutive spheres. -/
theorem bfsLoop_get (N : ℕ → Finset ℕ) (s : ℕ) (fuel : ℕ) :
    ∀ (k j : ℕ)
      (hj : j < (bfsLoop N fuel (sphere N s k) (ball N s k)).1.length),
      (bfsLoop N fuel (sphere N s k) (ball N s k)).1.get ⟨j, hj⟩ =
        sphere N s (k + 1 + j) := by
  induction fuel with
  | zero => intro k j hj; simp [bfsLoop] at hj
  | succ fuel ih =>
    intro k j hj
    by_cases h : sphere N s (k + 1) = ∅
    · rw [bfsLoop_sphere_empty N s fuel k h] at hj
      simp at hj
    · have h2 : (bfsLoop N (fuel + 1) (sphere N s k) (ball N s k)).1 =
          sphere N s (k + 1) ::
            (bfsLoop N fuel (sphere N s (k + 1)) (ball N s (k + 1))).1 := by
        rw [bfsLoop_sphere_succ N s fuel k h]
      rw [List.get_of_eq h2]
      cases j with
      | zero => simp
      | succ j =>
        simp only [List.get_cons_succ]
        exact (ih (k + 1) j _).trans (by congr 1; omega)

/-- The final visited set is the ball whose radius is the number of rounds
actually performed. -/
theorem bfsLoop_visited (N : ℕ → Finset ℕ) (s : ℕ) (fuel : ℕ) :
    ∀ k, (bfsLoop N fuel (sphere N s k) (ball N s k)).2 =
      ball N s (k + (bfsLoop N fuel (sphere N s k) (ball N s k)).1.length) := by
  induction fuel with
  | zero => intro k; simp [bfsLoop]
  | succ fuel ih =>
    intro k
    by_cases h : sphere N s (k + 1) = ∅
    · rw [bfsLoop_sphere_empty N s fuel k h]; simp
    · rw [bfsLoop_sphere_succ N s fuel k h]
      simp only [List.length_cons]
      rw [ih (k + 1)]
      congr 1
      omega

theorem bfsLoop_length_le (N : ℕ → Finset ℕ) (fuel : ℕ) :
    ∀ frontier visited,
      (bfsLoop N fuel frontier visited).1.length ≤ fuel := by
  induction fuel with
  | zero => intro f v; simp [bfsLoop]
  | succ fuel ih =>
    intro f v
    rw [bfsLoop_succ]
    split
    · simp
    · simpa using Nat.succ_le_succ (ih _ _)

theorem bfsLoop_levels_nonempty (N : ℕ → Finset ℕ) (fuel : ℕ) :
    ∀ frontier visited l, l ∈ (bfsLoop N fuel frontier visited).1 → l ≠ ∅ := by
  induction fuel with
  | zero => intro f v l hl; simp [bfsLoop] at hl
  | succ fuel ih =>
    intro f v l hl
    rw [bfsLoop_succ] at hl
    split at hl
    · simp at hl
    · rcases List.mem_cons.mp hl with rfl | hl
      · assumption
      · exact ih _ _ l hl

/-- The visited set never shrinks as the loop runs. -/
theorem bfsLoop_visited_supset (N : ℕ → Finset ℕ) (fuel : ℕ) :
    ∀ frontier visited, visited ⊆ (bfsLoop N fuel frontier visited).2 := by
  induction fuel with
  | zero => intro f v; exact subset_rfl
  | succ fuel ih =>
    intro f v
    rw [bfsLoop_succ]
    split
    · exact subset_rfl
    · exact Finset.subset_union_left.trans (ih _ _)

/-- More fuel can only grow the final visited set. -/
theorem bfsLoop_visited_mono (N : ℕ → Finset ℕ) {fuel₁ fuel₂ : ℕ}
    (h : fuel₁ ≤ fuel₂) :
    ∀ frontier visited,
      (bfsLoop N fuel₁ frontier visited).2 ⊆ (bfsLoop N fuel₂ frontier visited).2 := by
  induction fuel₁ generalizing fuel₂ with
  | zero => intro f v; exact bfsLoop_visited_supset N fuel₂ f v
  | succ fuel₁ ih =>
    intro f v
    obtain ⟨fuel₂', rfl⟩ : ∃ m, fuel₂ = m + 1 :=
      ⟨fuel₂ - 1, by omega⟩
    rw [bfsLoop_succ, bfsLoop_succ]
    split
    · exact subset_rfl
    · exact ih (Nat.succ_le_succ_iff.mp h) _ _

/-! ## Walks, balls and spheres -/

theorem mem_ballExact_iff (N : ℕ → Finset ℕ) (s : ℕ) :
    ∀ k x, x ∈ ballExact N s k ↔ hasWalk N s k x := by
  intro k
  induction k with
  | zero => intro x; simp [ballExact, hasWalk]
  | succ k ih =>
    intro x
    simp only [ballExact, hasWalk, stepSet, Finset.mem_biUnion]
    constructor
    · rintro ⟨y, hy, hx⟩
      exact ⟨y, (ih y).mp hy, hx⟩
    · rintro ⟨y, hy, hx⟩
      exact ⟨y, (ih y).mpr hy, hx⟩

theorem mem_ball_iff_walk (N : ℕ → Finset ℕ) (s : ℕ) :
    ∀ k x, x ∈ ball N s k ↔ ∃ j ≤ k, hasWalk N s j x := by
  intro k
  induction k with
  | zero =>
    intro x
    simp only [ball, Finset.mem_singleton]
    constructor
    · intro h; exact ⟨0, Nat.le_refl 0, h⟩
    · rintro ⟨j, hj, hw⟩
      cases Nat.le_zero.mp hj
      exact hw
  | succ k ih =>
    intro x
    rw [ball_succ, Finset.mem_union]
    constructor
    · rintro (h | h)
      · obtain ⟨j, hj, hw⟩ := (ih x).mp h
        exact ⟨j, Nat.le_succ_of_le hj, hw⟩
      · obtain ⟨y, hy, hx⟩ := Finset.mem_biUnion.mp h
        obtain ⟨j, hj, hw⟩ := (ih y).mp hy
        refine ⟨j + 1, Nat.succ_le_succ hj, ⟨y, hw, hx⟩⟩
    · rintro ⟨j, hj, hw⟩
      rcases Nat.lt_or_ge j (k + 1) with hlt | hge
      · exact Or.inl ((ih x).mpr ⟨j, Nat.lt_succ_iff.mp hlt, hw⟩)
      · cases Nat.le_antisymm hj hge
        obtain ⟨y, hwy, hxy⟩ := hw
        exact Or.inr (Finset.mem_biUnion.mpr ⟨y, (ih y).mpr ⟨k, Nat.le_refl k, hwy⟩, hxy⟩)

theorem mem_sphere_iff_ball (N : ℕ → Finset ℕ) (s : ℕ) (k x : ℕ) :
    x ∈ sphere N s k ↔ x ∈ ball N s k ∧ ∀ j < k, x ∉ ball N s j := by
  cases k with
  | zero =>
    simp only [sphere, ball]
    exact ⟨fun h => ⟨h, fun j hj => absurd hj (Nat.not_lt_zero j)⟩, fun h => h.1⟩
  | succ k =>
    rw [sphere_succ, Finset.mem_sdiff]
    constructor
    · rintro ⟨h1, h2⟩
      refine ⟨h1, fun j hj hmem => h2 (ball_mono N s (Nat.lt_succ_iff.mp hj) hmem)⟩
    · rintro ⟨h1, h2⟩
      exact ⟨h1, h2 k (Nat.lt_succ_self k)⟩

/-- Membership in a sphere is exactly "BFS distance `k`": a walk of length
`k` exists and no shorter walk does. -/
theorem mem_sphere_iff_walk (N : ℕ → Finset ℕ) (s : ℕ) (k x : ℕ) :
    x ∈ sphere N s k ↔ hasWalk N s k x ∧ ∀ j < k, ¬ hasWalk N s j x := by
  rw [mem_sphere_iff_ball]
  constructor
  · rintro ⟨h1, h2⟩
    obtain ⟨j, hj, hw⟩ := (mem_ball_iff_walk N s k x).mp h1
    have hnw : ∀ j' < k, ¬ hasWalk N s j' x := by
      intro j' hj' hw'
      exact h2 j' hj' ((mem_ball_iff_walk N s j' x).mpr ⟨j', Nat.le_refl j', hw'⟩)
    rcases Nat.lt_or_ge j k with hlt | hge
    · exact absurd hw (hnw j hlt)
    · cases Nat.le_antisymm hj hge
      exact ⟨hw, hnw⟩
  · rintro ⟨h1, h2⟩
    refine ⟨(mem_ball_iff_walk N s k x).mpr ⟨k, Nat.le_refl k, h1⟩, ?_⟩
    intro j hj hmem
    obtain ⟨j', hj', hw'⟩ := (mem_ball_iff_walk N s j x).mp hmem
    exact h2 j' (Nat.lt_of_le_of_lt hj' hj) hw'

theorem mem_ball_iff_sphere (N : ℕ → Finset ℕ) (s : ℕ) :
    ∀ m x, x ∈ ball N s m ↔ ∃ j ≤ m, x ∈ sphere N s j := by
  intro m
  induction m with
  | zero =>
    intro x
    constructor
    · intro h; exact ⟨0, Nat.le_refl 0, h⟩
    · rintro ⟨j, hj, hx⟩; cases Nat.le_zero.mp hj; exact hx
  | succ m ih =>
    intro x
    rw [← ball_union_sphere, Finset.mem_union]
    constructor
    · rintro (h | h)
      · obtain ⟨j, hj, hx⟩ := (ih x).mp h
        exact ⟨j, Nat.le_succ_of_le hj, hx⟩
      · exact ⟨m + 1, Nat.le_refl _, h⟩
    · rintro ⟨j, hj, hx⟩
      rcases Nat.lt_or_ge j (m + 1) with hlt | hge
      · exact Or.inl ((ih x).mpr ⟨j, Nat.lt_succ_iff.mp hlt, hx⟩)
      · cases Nat.le_antisymm hj hge
        exact Or.inr hx

/-- Distinct spheres are disjoint. -/
theorem sphere_disjoint (N : ℕ → Finset ℕ) (s : ℕ) {j k x : ℕ} (hjk : j < k)
    (hj : x ∈ sphere N s j) (hk : x ∈ sphere N s k) : False := by
  have h1 := (mem_sphere_iff_ball N s j x).mp hj
  have h2 := (mem_sphere_iff_ball N s k x).mp hk
  exact h2.2 j hjk h1.1

/-! ## `bfs_levels` as spheres -/

/-- `{start}` is both the sphere and the ball of radius `0`, so `bfs_levels`
is the loop started at distance `0`. -/
theorem bfs_levels_eq (start : ℕ) (depth : ℤ) (oa ia : ℕ → Finset ℕ)
    (dir : Direction) :
    bfs_levels start depth oa ia dir =
      (sphere (neighbors oa ia dir) start 0 ::
          (bfsLoop (neighbors oa ia dir) depth.toNat
            (sphere (neighbors oa ia dir) start 0)
            (ball (neighbors oa ia dir) start 0)).1,
        (bfsLoop (neighbors oa ia dir) depth.toNat
          (sphere (neighbors oa ia dir) start 0)
          (ball (neighbors oa ia dir) start 0)).2) := rfl

/-- Every entry of the returned levels list is the sphere at its index. -/
theorem bfs_levels_get (start : ℕ) (depth : ℤ) (oa ia : ℕ → Finset ℕ)
    (dir : Direction) (k : ℕ)
    (hk : k < (bfs_levels start depth oa ia dir).1.length) :
    (bfs_levels start depth oa ia dir).1.get ⟨k, hk⟩ =
      sphere (neighbors oa ia dir) start k := by
  have h2 : (bfs_levels start depth oa ia dir).1 =
      sphere (neighbors oa ia dir) start 0 ::
        (bfsLoop (neighbors oa ia dir) depth.toNat
          (sphere (neighbors oa ia dir) start 0)
          (ball (neighbors oa ia dir) start 0)).1 := by
    rw [bfs_levels_eq]
  rw [List.get_of_eq h2]
  cases k with
  | zero => simp
  | succ k =>
    simp only [List.get_cons_succ]
    exact (bfsLoop_get (neighbors oa ia dir) start depth.toNat 0 k _).trans
      (by congr 1; omega)

/-- The returned visited set is the ball of radius "number of levels − 1". -/
theorem bfs_levels_visited (start : ℕ) (depth : ℤ) (oa ia : ℕ → Finset ℕ)
    (dir : Direction) :
    (bfs_levels start depth oa ia dir).2 =
      ball (neighbors oa ia dir) start
        ((bfs_levels start depth oa ia dir).1.length - 1) := by
  rw [bfs_levels_eq]
  simp only [List.length_cons, Nat.add_sub_cancel]
  exact (bfsLoop_visited (neighbors oa ia dir) start depth.toNat 0).trans
    (by congr 1; omega)

/-! ## Level partitioner (`split_levels`, source lines 1314–1327)

The Python code linearises each level with `list(group)`; per the modelling
conventions above, the embedding linearises in ascending id order. -/

/-- Ascending linearisation of a multiset of ids, by insertion sort — well
defined because sorted permutations are equal. -/
def sortMultiset (m : Multiset ℕ) : List ℕ :=
  Quotient.liftOn m (fun l => l.insertionSort (· ≤ ·))
    (fun a b h =>
      List.eq_of_perm_of_sorted
        (((List.perm_insertionSort _ a).trans h).trans
          (List.perm_insertionSort _ b).symm)
        (List.sorted_insertionSort _ a) (List.sorted_insertionSort _ b))

/-- `list(group)` under the ascending-order modelling convention. -/
def sortFinset (g : Finset ℕ) : List ℕ := sortMultiset g.val

theorem coe_sortMultiset (m : Multiset ℕ) : (↑(sortMultiset m) : Multiset ℕ) = m :=
  Quotient.inductionOn m (fun l => Quotient.sound (List.perm_insertionSort _ l))

theorem mem_sortFinset (g : Finset ℕ) (x : ℕ) : x ∈ sortFinset g ↔ x ∈ g := by
  rw [← Multiset.mem_coe, sortFinset, coe_sortMultiset]
  rfl

theorem length_sortFinset (g : Finset ℕ) : (sortFinset g).length = g.card := by
  have h := congrArg Multiset.card (coe_sortMultiset g.val)
  simpa using h

theorem sortFinset_toFinset (g : Finset ℕ) : (sortFinset g).toFinset = g := by
  ext x
  rw [List.mem_toFinset, mem_sortFinset]

theorem sortFinset_ne_nil (g : Finset ℕ) (h : g.Nonempty) : sortFinset g ≠ [] := by
  intro hc
  have := length_sortFinset g
  rw [hc] at this
  simp only [List.length_nil] at this
  exact absurd (Finset.card_eq_zero.mp this.symm) (Finset.nonempty_iff_ne_empty.mp h)

/-- `[group[i:i+cap] for i in range(0, len(group), cap)]`, fuelled so that it
reduces by iota; the fuel starts at the list length and every step consumes
at least one element.  The Python loop raises on `cap = 0`; the embedding
returns no chunks there (never reached: all call sites pass 20, 30 or 50). -/
def chunkListGo : ℕ → ℕ → List ℕ → List (List ℕ)
  | _, _, [] => []
  | _, 0, _ :: _ => []
  | 0, _ + 1, _ :: _ => []
  | fuel + 1, cap + 1, x :: xs =>
    (x :: xs.take cap) :: chunkListGo fuel (cap + 1) (xs.drop cap)

/-- Consecutive chunks of at most `cap` elements (the last may be smaller). -/
def chunkList (cap : ℕ) (l : List ℕ) : List (List ℕ) := chunkListGo l.length cap l

theorem chunkListGo_nil (fuel cap : ℕ) : chunkListGo fuel cap [] = [] := by
  cases fuel <;> cases cap <;> rfl

/-- The index of the last band containing `n`, starting the numbering at
`i0`: the value `node_levels[n]` holds after all `node_levels[nid] =
level_idx` assignments (later assignments overwrite earlier ones). -/
def lastBandIdx (n : ℕ) : List (Finset ℕ) → ℕ → Option ℕ
  | [], _ => none
  | b :: bs, i =>
    match lastBandIdx n bs (i + 1) with
    | some j => some j
    | none => if n ∈ b then some i else none

/-- `split_levels` (source lines 1314–1327): chunk every level into sub-bands
of at most `cap` nodes, keep the sub-bands in level order, and map each node
to the index of the band it was (last) assigned to. -/
def split_levels (cap : ℕ) (levels : List (Finset ℕ)) :
    List (Finset ℕ) × (ℕ → Option ℕ) :=
  let bands :=
    (levels.map (fun g => (chunkList cap (sortFinset g)).map List.toFinset)).flatten
  (bands, fun n => lastBandIdx n bands 0)

theorem chunkListGo_length_le (cap : ℕ) :
    ∀ (fuel : ℕ) (l : List ℕ), ∀ c ∈ chunkListGo fuel (cap + 1) l,
      c.length ≤ cap + 1 := by
  intro fuel
  induction fuel with
  | zero => intro l c hc; cases l <;> simp [chunkListGo] at hc
  | succ fuel ih =>
    intro l c hc
    cases l with
    | nil => simp [chunkListGo] at hc
    | cons x xs =>
      rw [chunkListGo] at hc
      rcases List.mem_cons.mp hc with rfl | hc
      · simp only [List.length_cons]
        have := List.length_take_le cap xs
        omega
      · exact ih (xs.drop cap) c hc

/-- Chunks have at most `cap` elements. -/
theorem chunkList_length_le :
    ∀ (cap : ℕ) (l : List ℕ), ∀ c ∈ chunkList cap l, c.length ≤ cap := by
  intro cap l
  cases cap with
  | zero =>
    intro c hc
    cases l <;> simp [chunkList, chunkListGo] at hc
  | succ cap => exact chunkListGo_length_le cap l.length l

theorem chunkListGo_flatten (cap : ℕ) :
    ∀ (fuel : ℕ) (l : List ℕ), l.length ≤ fuel →
      (chunkListGo fuel (cap + 1) l).flatten = l := by
  intro fuel
  induction fuel with
  | zero =>
    intro l hl
    rw [List.length_eq_zero.mp (Nat.le_zero.mp hl)]
    rfl
  | succ fuel ih =>
    intro l hl
    cases l with
    | nil => rfl
    | cons x xs =>
      rw [chunkListGo]
      simp only [List.flatten_cons]
      rw [ih (xs.drop cap)
        (by simp only [List.length_drop]; simp only [List.length_cons] at hl; omega)]
      simp [List.take_append_drop]

/-- Chunking then flattening restores the original list. -/
theorem chunkList_flatten (cap : ℕ) (l : List ℕ) (h : 0 < cap) :
    (chunkList cap l).flatten = l := by
  cases cap with
  | zero => exact absurd h (lt_irrefl 0)
  | succ cap => exact chunkListGo_flatten cap l.length l (Nat.le_refl _)

/-- A nonempty list that fits in one chunk is one chunk. -/
theorem chunkList_of_le (cap : ℕ) (l : List ℕ) (hne : l ≠ [])
    (hlen : l.length ≤ cap + 1) : chunkList (cap + 1) l = [l] := by
  cases l with
  | nil => exact absurd rfl hne
  | cons x xs =>
    show chunkListGo (xs.length + 1) (cap + 1) (x :: xs) = [x :: xs]
    rw [chunkListGo]
    simp only [List.length_cons] at hlen
    rw [List.take_of_length_le (by omega), List.drop_of_length_le (by omega),
      chunkListGo_nil]

/-- A `some` answer of `lastBandIdx` points inside the band list, at a band
containing the node. -/
theorem lastBandIdx_some (n : ℕ) :
    ∀ (bs : List (Finset ℕ)) (i0 j : ℕ), lastBandIdx n bs i0 = some j →
      ∃ t, ∃ ht : t < bs.length, j = i0 + t ∧ n ∈ bs.get ⟨t, ht⟩ := by
  intro bs
  induction bs with
  | nil => intro i0 j h; simp [lastBandIdx] at h
  | cons b bs ih =>
    intro i0 j h
    rw [lastBandIdx] at h
    split at h
    · rename_i j' heq
      obtain rfl : j' = j := Option.some.inj h
      obtain ⟨t, ht, rfl, hmem⟩ := ih (i0 + 1) j' heq
      exact ⟨t + 1, Nat.succ_lt_succ ht, by omega, by simpa using hmem⟩
    · split at h
      · rename_i hmem
        obtain rfl : i0 = j := Option.some.inj h
        exact ⟨0, Nat.succ_pos _, by omega, by simpa using hmem⟩
      · exact absurd h (by simp)

/-- If some band contains `n`, `lastBandIdx` answers. -/
theorem lastBandIdx_isSome (n : ℕ) :
    ∀ (bs : List (Finset ℕ)) (i0 : ℕ) (b : Finset ℕ), b ∈ bs → n ∈ b →
      ∃ j, lastBandIdx n bs i0 = some j := by
  intro bs
  induction bs with
  | nil => intro i0 b hb; simp at hb
  | cons b0 bs ih =>
    intro i0 b hb hn
    rw [lastBandIdx]
    rcases hrec : lastBandIdx n bs (i0 + 1) with _ | j'
    · show ∃ j, (if n ∈ b0 then some i0 else none) = some j
      rcases List.mem_cons.mp hb with rfl | hb
      · exact ⟨i0, by simp [hn]⟩
      · obtain ⟨j, hj⟩ := ih (i0 + 1) b hb hn
        rw [hrec] at hj
        exact absurd hj (by simp)
    · exact ⟨j', rfl⟩

/-! ## Graph parser (source lines 13–31)

The two regexes `NODE_RE = (\d+)\s*\[label="([^"]*)"\]` and
`EDGE_RE = (\d+)\s*->\s*(\d+)\s*\[label="([^"]*)"\]` are modelled by direct
scanners.  `re.finditer` tries a match at each position, left to right,
and resumes after the end of every match (matches never overlap); since the
greedy pieces `\d+`, `\s*` and `[^"]*` are each followed by a character they
can never match, maximal munch is exact here. -/

/-- The value of a digit string, `int(m.group(...))`. -/
def natOfDigits (ds : List Char) : ℕ :=
  ds.foldl (fun a c => 10 * a + (c.toNat - 48)) 0

/-- Match a literal character sequence, returning the rest of the input. -/
def matchLit : List Char → List Char → Option (List Char)
  | [], rest => some rest
  | _ :: _, [] => none
  | c :: cs, r :: rs => if c = r then matchLit cs rs else none

/-- Try `NODE_RE` anchored at the head of `l`; on success return the node id,
its raw label text, and the input following the match. -/
def matchNodeAt (l : List Char) : Option ((ℕ × List Char) × List Char) :=
  let ds := l.takeWhile Char.isDigit
  if ds = [] then none
  else
    let r2 := (l.dropWhile Char.isDigit).dropWhile Char.isWhitespace
    match matchLit ("[label=\"".toList) r2 with
    | none => none
    | some r3 =>
      let body := r3.takeWhile (fun c => c ≠ '"')
      match r3.dropWhile (fun c => c ≠ '"') with
      | '"' :: ']' :: r5 => some ((natOfDigits ds, body), r5)
      | _ => none

/-- Try `EDGE_RE` anchored at the head of `l`; on success return source id,
destination id, raw label text, and the input following the match. -/
def matchEdgeAt (l : List Char) : Option ((ℕ × ℕ × List Char) × List Char) :=
  let ds1 := l.takeWhile Char.isDigit
  if ds1 = [] then none
  else
    let r2 := (l.dropWhile Char.isDigit).dropWhile Char.isWhitespace
    match matchLit ("->".toList) r2 with
    | none => none
    | some r3 =>
      let r4 := r3.dropWhile Char.isWhitespace
      let ds2 := r4.takeWhile Char.isDigit
      if ds2 = [] then none
      else
        let r6 := (r4.dropWhile Char.isDigit).dropWhile Char.isWhitespace
        match matchLit ("[label=\"".toList) r6 with
        | none => none
        | some r7 =>
          let body := r7.takeWhile (fun c => c ≠ '"')
          match r7.dropWhile (fun c => c ≠ '"') with
          | '"' :: ']' :: r9 => some ((natOfDigits ds1, natOfDigits ds2, body), r9)
          | _ => none

/-- `NODE_RE.finditer`: scan position by position, resume after each match.
The fuel starts at the input length; every step consumes at least one
character (a match starts with a nonempty digit run), so it never runs out
before the input does. -/
def scanNodesAux : ℕ → List Char → List (ℕ × List Char)
  | 0, _ => []
  | fuel + 1, l =>
    match l with
    | [] => []
    | _ :: tail =>
      match matchNodeAt l with
      | some (res, rest) => res :: scanNodesAux fuel rest
      | none => scanNodesAux fuel tail

def scanNodes (l : List Char) : List (ℕ × List Char) := scanNodesAux l.length l

/-- `EDGE_RE.finditer`, same scanning scheme. -/
def scanEdgesAux : ℕ → List Char → List (ℕ × ℕ × List Char)
  | 0, _ => []
  | fuel + 1, l =>
    match l with
    | [] => []
    | _ :: tail =>
      match matchEdgeAt l with
      | some (res, rest) => res :: scanEdgesAux fuel rest
      | none => scanEdgesAux fuel tail

def scanEdges (l : List Char) : List (ℕ × ℕ × List Char) := scanEdgesAux l.length l

/-- Lookup in an insertion-ordered association list (a Python `dict`). -/
def lookupA (m : List (ℕ × List Char)) (k : ℕ) : Option (List Char) :=
  (m.find? (fun p => p.1 == k)).map Prod.snd

/-- `dict` assignment: update in place if the key exists, else append. -/
def updAssoc (m : List (ℕ × List Char)) (k : ℕ) (v : List Char) :
    List (ℕ × List Char) :=
  if m.any (fun p => p.1 == k) then
    m.map (fun p => if p.1 == k then (k, v) else p)
  else m ++ [(k, v)]

/-- Source lines 20–25: `if nid not in nodes or not nodes[nid]` — record a
declaration's label (into both `nodes` and `original_nodes`) only when the
id is new or its current label is empty (Python falsy). -/
def addNodeDecl (st : List (ℕ × List Char) × List (ℕ × List Char))
    (d : ℕ × List Char) : List (ℕ × List Char) × List (ℕ × List Char) :=
  match lookupA st.1 d.1 with
  | none => (updAssoc st.1 d.1 d.2, updAssoc st.2 d.1 d.2)
  | some old =>
    if old = [] then (updAssoc st.1 d.1 d.2, updAssoc st.2 d.1 d.2) else st

/-- `parse_source_text` (source lines 16–31): collect node declarations
(first non-empty label wins), then the edge list with stripped raw labels
and derived status. -/
def parse_source_text (source_text : List Char) :
    List (ℕ × List Char) × List Edge × List (ℕ × List Char) :=
  let st := (scanNodes source_text).foldl
    (fun st d => addNodeDecl st (d.1, pyStrip d.2)) ([], [])
  let edges := (scanEdges source_text).map (fun t =>
    { src := t.1, dst := t.2.1, raw_label := pyStrip t.2.2,
      status := extract_status (pyStrip t.2.2) : Edge })
  (st.1, edges, st.2)

/-! ## Start node resolution (`resolve_start_node`, source lines 1240–1250) -/

/-- Python `int(s)` on the strings this tool meets: optional surrounding
whitespace, an optional sign, then a nonempty decimal digit run (CPython
also accepts underscore grouping and non-ASCII digits, which never occur
here).  `none` models a raised `ValueError`. -/
def pyIntOfString? (s : List Char) : Option ℤ :=
  match pyStrip s with
  | [] => none
  | '-' :: ds =>
    if ds ≠ [] ∧ ds.all Char.isDigit then some (-(natOfDigits ds : ℤ)) else none
  | '+' :: ds =>
    if ds ≠ [] ∧ ds.all Char.isDigit then some ((natOfDigits ds : ℤ)) else none
  | ds => if ds.all Char.isDigit then some ((natOfDigits ds : ℤ)) else none

/-- `resolve_start_node` (source lines 1240–1250): if the argument parses as
an integer it is returned as-is — with no check that the id occurs in the
graph; otherwise the first node (in insertion order) whose label matches
case-insensitively after stripping is returned; otherwise a `ValueError`
(modelled as `none`) is raised.  The `nodes` parameter is accepted but,
as in the source, never read. -/
def resolve_start_node (start_value : List Char)
    (nodes original_nodes : List (ℕ × List Char)) : Option ℤ :=
  match pyIntOfString? start_value with
  | some n => some n
  | none =>
    match original_nodes.find?
        (fun p => pyLower (pyStrip p.2) == pyLower (pyStrip start_value)) with
    | some p => some ((p.1 : ℤ))
    | none => none

/-! ## `generate_dot` per-edge attributes (source lines 146–194) -/

/-- The `--edge-labels` argument. -/
inductive ELabel where
  | status
  | full
  | none
deriving DecidableEq, Repr

/-- One DOT edge attribute, structured.  `penwidthTenths n` stands for the
literal `penwidth=n/10` (the source writes the floats 1.8, 1.2, 1.0, 0.9). -/
inductive Attr where
  | constraintFalse
  | style (s : List Char)
  | color (c : List Char)
  | penwidthTenths (n : ℕ)
  | minlen (n : ℕ)
  | label (l : List Char)
  | tailport (p : Char)
  | headport (p : Char)
deriving DecidableEq, Repr

/-- The body of the `for e in edges` loop of `generate_dot` (source lines
146–194): `none` when the edge is skipped (`continue`), otherwise the empty
head/tail pair plus the attribute list of the emitted line. -/
def edgeAttrs (level_index : ℕ → Option ℕ) (included_nodes : Finset ℕ)
    (edge_labels : ELabel) (use_ports : Bool) (tailp headp : Char)
    (level_edges_only deemphasize_cross : Bool) (e : BEdge) :
    Option (ℕ × ℕ × List Attr) :=
  if e.src ∈ included_nodes ∧ e.dst ∈ included_nodes then
    let delta : Option ℤ :=
      match level_index e.src, level_index e.dst with
      | some a, some b => some ((b : ℤ) - (a : ℤ))
      | _, _ => Option.none
    let absDelta : Option ℕ := delta.map Int.natAbs
    if level_edges_only ∧ absDelta ≠ some 1 then none
    else
      let base : List Char × List Char × ℕ :=
        if e.status = 'E' then ("#2e7d32".toList, "solid".toList, 18)
        else if e.status = 'S' then ("#b71c1c".toList, "dashed".toList, 12)
        else ("#666666".toList, "dotted".toList, 10)
      let attrs1 : List Attr :=
        if deemphasize_cross ∧ delta ≠ Option.none ∧ absDelta ≠ some 1 then
          [.constraintFalse, .style ("dotted".toList), .color ("#999999".toList),
              .penwidthTenths 9] ++
            (match absDelta with
             | some m => if 1 < m then [.minlen m] else []
             | Option.none => [])
        else
          [.color base.1, .style base.2.1, .penwidthTenths base.2.2]
      let attrs2 := attrs1 ++
        (if edge_labels = ELabel.full then [.label e.raw_label] else [])
      let attrs3 := attrs2 ++
        (if use_ports then [.tailport tailp, .headport headp] else [])
      some (e.src, e.dst, attrs3)
  else none

/-! ## Claim theorems -/

set_option maxRecDepth 8000

/-- A one-edge graph `0 → 1` used to witness the BFS claims. -/
def wE : List Edge := [{ src := 0, dst := 1, raw_label := [], status := 'E' }]

def wOut : ℕ → Finset ℕ := (build_adjacency wE).1

def wIn : ℕ → Finset ℕ := (build_adjacency wE).2

/-- C1: for every start node, non-negative hop budget, direction in
`{out, in, both}` and adjacency maps, the levels list returned by
`bfs_levels` satisfies: level 0 is exactly `{start}`; for every `k > 0`,
level `k` contains exactly the nodes whose BFS distance from `start` under
the selected neighbor relation is exactly `k` (a walk of length `k` exists
and no shorter one does); the union of all levels equals the returned
visited set; and no node appears in two different levels. -/
theorem c1_bfs_levels_distance_classes
    (start : ℕ) (depth : ℤ) (oa ia : ℕ → Finset ℕ) (dir : Direction)
    (hd : 0 ≤ depth) :
    ((bfs_levels start depth oa ia dir).1.head? = some {start}) ∧
    (∀ (k : ℕ) (hk : k < (bfs_levels start depth oa ia dir).1.length),
      0 < k → ∀ n : ℕ,
        n ∈ (bfs_levels start depth oa ia dir).1.get ⟨k, hk⟩ ↔
          (hasWalk (neighbors oa ia dir) start k n ∧
            ∀ j < k, ¬ hasWalk (neighbors oa ia dir) start j n)) ∧
    (∀ n : ℕ, n ∈ (bfs_levels start depth oa ia dir).2 ↔
      ∃ l ∈ (bfs_levels start depth oa ia dir).1, n ∈ l) ∧
    (∀ (k₁ k₂ : ℕ) (h1 : k₁ < (bfs_levels start depth oa ia dir).1.length)
      (h2 : k₂ < (bfs_levels start depth oa ia dir).1.length), k₁ ≠ k₂ →
      ∀ n : ℕ, n ∈ (bfs_levels start depth oa ia dir).1.get ⟨k₁, h1⟩ →
        n ∉ (bfs_levels start depth oa ia dir).1.get ⟨k₂, h2⟩) := by
  refine ⟨rfl, ?_, ?_, ?_⟩
  · intro k hk _ n
    rw [bfs_levels_get start depth oa ia dir k hk]
    exact mem_sphere_iff_walk (neighbors oa ia dir) start k n
  · intro n
    rw [bfs_levels_visited]
    have hlen : 0 < (bfs_levels start depth oa ia dir).1.length := by
      rw [bfs_levels_eq]; simp
    rw [mem_ball_iff_sphere]
    constructor
    · rintro ⟨j, hj, hn⟩
      have hjlt : j < (bfs_levels start depth oa ia dir).1.length := by omega
      refine ⟨(bfs_levels start depth oa ia dir).1.get ⟨j, hjlt⟩,
        List.get_mem _ j hjlt, ?_⟩
      rw [bfs_levels_get start depth oa ia dir j hjlt]
      exact hn
    · rintro ⟨l, hl, hn⟩
      obtain ⟨⟨j, hjlt⟩, rfl⟩ := List.mem_iff_get.mp hl
      rw [bfs_levels_get start depth oa ia dir j hjlt] at hn
      exact ⟨j, by omega, hn⟩
  · intro k₁ k₂ h1 h2 hne n hn1 hn2
    rw [bfs_levels_get start depth oa ia dir k₁ h1] at hn1
    rw [bfs_levels_get start depth oa ia dir k₂ h2] at hn2
    rcases Nat.lt_or_ge k₁ k₂ with hlt | hge
    · exact sphere_disjoint (neighbors oa ia dir) start hlt hn1 hn2
    · rcases Nat.lt_or_ge k₂ k₁ with hlt' | hge'
      · exact sphere_disjoint (neighbors oa ia dir) start hlt' hn2 hn1
      · exact hne (Nat.le_antisymm hge' hge)

/-- Witness for C1 on the concrete graph `0 → 1`, depth 1, direction `out`:
the hypotheses hold and level 1 membership of node 1 yields its distance. -/
theorem c1_witness :
    (0 : ℤ) ≤ 1 ∧
    (hasWalk (neighbors wOut wIn Direction.out) 0 1 1 ∧
      ∀ j < 1, ¬ hasWalk (neighbors wOut wIn Direction.out) 0 j 1) := by
  refine ⟨by norm_num, ?_⟩
  have h := (c1_bfs_levels_distance_classes 0 1 wOut wIn Direction.out
    (by norm_num)).2.1 1 (by decide) (by decide) 1
  exact h.mp (by decide)

/-- C6: for fixed start, direction and adjacency, the visited set returned
by `bfs_levels` is monotone in the hop budget. -/
theorem c6_bfs_levels_visited_monotone
    (start : ℕ) (d₁ d₂ : ℤ) (oa ia : ℕ → Finset ℕ) (dir : Direction)
    (h : d₁ ≤ d₂) :
    (bfs_levels start d₁ oa ia dir).2 ⊆ (bfs_levels start d₂ oa ia dir).2 := by
  rw [bfs_levels_eq start d₁ oa ia dir, bfs_levels_eq start d₂ oa ia dir]
  exact bfsLoop_visited_mono (neighbors oa ia dir) (Int.toNat_le_toNat h) _ _

/-- Witness for C6 at budgets `0 ≤ 1` on the graph `0 → 1`. -/
theorem c6_witness :
    (0 : ℤ) ≤ 1 ∧
    (bfs_levels 0 0 wOut wIn Direction.out).2 ⊆
      (bfs_levels 0 1 wOut wIn Direction.out).2 :=
  ⟨by norm_num,
    c6_bfs_levels_visited_monotone 0 0 1 wOut wIn Direction.out (by norm_num)⟩

/-- C10: every level returned by `bfs_levels` is non-empty (an exhausted
frontier is never appended), and the number of levels is at most the
clamped hop budget plus one. -/
theorem c10_bfs_levels_nonempty_bounded
    (start : ℕ) (depth : ℤ) (oa ia : ℕ → Finset ℕ) (dir : Direction) :
    (∀ l ∈ (bfs_levels start depth oa ia dir).1, l.Nonempty) ∧
    (bfs_levels start depth oa ia dir).1.length ≤ depth.toNat + 1 := by
  constructor
  · intro l hl
    rw [bfs_levels_eq] at hl
    rcases List.mem_cons.mp hl with rfl | hl
    · exact ⟨start, Finset.mem_singleton_self start⟩
    · exact Finset.nonempty_iff_ne_empty.mpr
        (bfsLoop_levels_nonempty (neighbors oa ia dir) depth.toNat _ _ l hl)
  · rw [bfs_levels_eq]
    simp only [List.length_cons]
    exact Nat.succ_le_succ (bfsLoop_length_le (neighbors oa ia dir) depth.toNat _ _)

/-- Witness for C10: on the graph `0 → 1` with depth 1 the level `{0}` is in
the list and is non-empty (and the bound is checked concretely). -/
theorem c10_witness :
    ({0} : Finset ℕ) ∈ (bfs_levels 0 1 wOut wIn Direction.out).1 ∧
    ({0} : Finset ℕ).Nonempty ∧
    (bfs_levels 0 1 wOut wIn Direction.out).1.length ≤ (1 : ℤ).toNat + 1 :=
  ⟨by decide,
    (c10_bfs_levels_nonempty_bounded 0 1 wOut wIn Direction.out).1 {0} (by decide),
    (c10_bfs_levels_nonempty_bounded 0 1 wOut wIn Direction.out).2⟩

/-- C7: edge status classification is a pure function of the raw label's
first `|`-delimited segment, case-insensitive on its leading character:
`"" ↦ E`, `"S|x" ↦ S`, `"D" ↦ D`, `"s-foo" ↦ S`, `"X" ↦ E` (unrecognized
defaults to Enabled); segments after the first `|` never affect the result,
and the status depends only on the upper-cased stripped first segment. -/
theorem c7_extract_status_first_segment :
    (extract_status ("".toList) = 'E') ∧
    (extract_status ("S|x".toList) = 'S') ∧
    (extract_status ("D".toList) = 'D') ∧
    (extract_status ("s-foo".toList) = 'S') ∧
    (extract_status ("X".toList) = 'E') ∧
    (∀ s t : List Char, '|' ∉ s →
      extract_status (s ++ '|' :: t) = extract_status s) ∧
    (∀ l₁ l₂ : List Char,
      pyUpper (pyStrip (firstSegment l₁)) = pyUpper (pyStrip (firstSegment l₂)) →
      extract_status l₁ = extract_status l₂) := by
  refine ⟨by decide, by decide, by decide, by decide, by decide, ?_, ?_⟩
  · intro s t hs
    rw [extract_status_eq_statusOfFirst, extract_status_eq_statusOfFirst]
    simp only [firstSegment]
    rw [pySplit_append '|' s t hs, pySplit_of_not_mem '|' s hs]
    rfl
  · intro l₁ l₂ h
    rw [extract_status_eq_statusOfFirst, extract_status_eq_statusOfFirst, h]

/-- Witness for C7: the first-segment rule applied to `"ab" ++ "|" ++ "x"`. -/
theorem c7_witness :
    ('|' ∉ ("ab".toList)) ∧
    extract_status ("ab".toList ++ '|' :: ("x".toList)) =
      extract_status ("ab".toList) :=
  ⟨by decide,
    c7_extract_status_first_segment.2.2.2.2.2.1 ("ab".toList) ("x".toList)
      (by decide)⟩

/-- C3 counterexample: the claim says an integer id absent from the graph
must fail with a resolution error, but on graph data whose only node is `0`
the argument `"999"` resolves to `999` with no error. -/
theorem c3_counterexample :
    resolve_start_node ("999".toList) [(0, "Start".toList)]
        [(0, "Start".toList)] = some 999 ∧
    ∀ p ∈ [((0 : ℕ), "Start".toList)], p.1 ≠ 999 :=
  ⟨by decide, by decide⟩

/-- C3 (amended): resolution fails with a resolution error iff the argument
neither parses as an integer nor matches any node's label (case-insensitive,
whitespace-trimmed); an argument that parses as an integer is returned as-is
with no check that it occurs in the graph. -/
theorem c3_resolve_start_node_amended
    (s : List Char) (nodes orig : List (ℕ × List Char)) :
    (resolve_start_node s nodes orig = none ↔
      (pyIntOfString? s = none ∧
        ∀ p ∈ orig, pyLower (pyStrip p.2) ≠ pyLower (pyStrip s))) ∧
    (∀ n : ℤ, pyIntOfString? s = some n →
      resolve_start_node s nodes orig = some n) := by
  constructor
  · unfold resolve_start_node
    cases hint : pyIntOfString? s with
    | some n =>
      constructor
      · intro h; exact absurd h (by simp)
      · rintro ⟨h, -⟩; exact absurd h (by simp)
    | none =>
      cases hfind : orig.find?
          (fun p => pyLower (pyStrip p.2) == pyLower (pyStrip s)) with
      | some p =>
        show some ((p.1 : ℤ)) = none ↔ _
        constructor
        · intro h; exact absurd h (by simp)
        · rintro ⟨-, hall⟩
          have hpred : pyLower (pyStrip p.2) = pyLower (pyStrip s) := by
            have := List.find?_some hfind
            simpa using this
          exact absurd hpred (hall p (List.mem_of_find?_eq_some hfind))
      | none =>
        show (none : Option ℤ) = none ↔ _
        refine ⟨fun _ => ⟨rfl, ?_⟩, fun _ => rfl⟩
        intro p hp
        have := List.find?_eq_none.mp hfind p hp
        simpa using this
  · intro n hn
    unfold resolve_start_node
    rw [hn]

/-- Witness for C3 (amended): `"zzz"` is not an integer and matches no
label, so resolution fails. -/
theorem c3_witness :
    pyIntOfString? ("zzz".toList) = none ∧
    resolve_start_node ("zzz".toList) [] [(0, "Start".toList)] = none :=
  ⟨by decide,
    (c3_resolve_start_node_amended ("zzz".toList) [] [(0, "Start".toList)]).1.mpr
      ⟨by decide, by decide⟩⟩

/-! ## The merge invariant (C2) -/

/-- Number of input edges between a given unordered pair. -/
def keyCount (es : List Edge) (k : ℕ × ℕ) : ℕ :=
  (es.filter (fun e => e.key == k)).length

theorem keyCount_append_single (p : List Edge) (e : Edge) (k : ℕ × ℕ) :
    keyCount (p ++ [e]) k = keyCount p k + (if e.key = k then 1 else 0) := by
  rw [keyCount, keyCount, List.filter_append]
  simp only [List.length_append]
  by_cases h : e.key = k
  · simp [h]
  · simp [List.filter_cons, h]

theorem keyCount_pos_iff (p : List Edge) (k : ℕ × ℕ) :
    0 < keyCount p k ↔ ∃ e ∈ p, e.key = k := by
  rw [keyCount, List.length_pos_iff_exists_mem]
  constructor
  · rintro ⟨e, he⟩
    have := List.mem_filter.mp he
    exact ⟨e, this.1, by simpa using this.2⟩
  · rintro ⟨e, he, hk⟩
    exact ⟨e, List.mem_filter.mpr ⟨he, by simpa using hk⟩⟩

theorem keyCount_two_le (p : List Edge) (k : ℕ × ℕ) {e₁ e₂ : Edge}
    (h₁ : e₁ ∈ p) (h₂ : e₂ ∈ p) (hk₁ : e₁.key = k) (hk₂ : e₂.key = k)
    (hne : e₁ ≠ e₂) : 2 ≤ keyCount p k := by
  have m₁ : e₁ ∈ p.filter (fun e => e.key == k) :=
    List.mem_filter.mpr ⟨h₁, by simpa using hk₁⟩
  have m₂ : e₂ ∈ p.filter (fun e => e.key == k) :=
    List.mem_filter.mpr ⟨h₂, by simpa using hk₂⟩
  rw [keyCount]
  rcases hfl : p.filter (fun e => e.key == k) with - | ⟨a, - | ⟨b, rest⟩⟩
  · rw [hfl] at m₁; simp at m₁
  · rw [hfl] at m₁ m₂
    simp only [List.mem_singleton] at m₁ m₂
    exact absurd (m₁.trans m₂.symm) hne
  · rw [hfl]
    simp

theorem ekey_comm (a b : ℕ) : ekey a b = ekey b a := by
  simp [ekey, Nat.min_comm, Nat.max_comm]

/-- The invariant the merge loop maintains between the processed prefix of
the input and the accumulated merged list. -/
def MergeInv (processed : List Edge) (acc : List BEdge) : Prop :=
  ((acc.map BEdge.key).Nodup) ∧
  (∀ k : ℕ × ℕ, (∃ b ∈ acc, b.key = k) ↔ 0 < keyCount processed k) ∧
  (∀ b ∈ acc, ∃ e, processed.find? (fun x => x.key == b.key) = some e ∧
    b.src = e.src ∧ b.dst = e.dst ∧ b.raw_label = e.raw_label ∧
    b.status = e.status) ∧
  (∀ b ∈ acc, b.bidirectional = decide (2 ≤ keyCount processed b.key))

theorem setFlag_key (b : BEdge) : (setFlag b).key = b.key := rfl

theorem mergeStep_inv {p : List Edge} {acc : List BEdge} (e : Edge)
    (h : MergeInv p acc) : MergeInv (p ++ [e]) (mergeStep acc e) := by
  obtain ⟨hnd, hiff, hfirst, hflag⟩ := h
  by_cases hmem : acc.any (fun b => b.key == e.key)
  · rw [mergeStep, if_pos hmem]
    have hkeymap : ∀ b : BEdge,
        ((if b.key == e.key then setFlag b else b).key) = b.key := by
      intro b; split <;> rfl
    obtain ⟨b₀, hb₀, hb₀k⟩ : ∃ b ∈ acc, b.key = e.key := by
      obtain ⟨b, hb, hbe⟩ := List.any_eq_true.mp hmem
      exact ⟨b, hb, by simpa using hbe⟩
    refine ⟨?_, ?_, ?_, ?_⟩
    · have : (acc.map (fun b => if b.key == e.key then setFlag b else b)).map
          BEdge.key = acc.map BEdge.key := by
        rw [List.map_map]
        exact List.map_congr_left (fun b _ => hkeymap b)
      rw [this]
      exact hnd
    · intro k
      rw [keyCount_append_single]
      constructor
      · rintro ⟨b', hb', hbk⟩
        obtain ⟨b, hb, rfl⟩ := List.mem_map.mp hb'
        rw [hkeymap b] at hbk
        have := (hiff k).mp ⟨b, hb, hbk⟩
        omega
      · intro hpos
        by_cases hek : e.key = k
        · exact ⟨(if b₀.key == e.key then setFlag b₀ else b₀),
            List.mem_map_of_mem _ hb₀, by rw [hkeymap b₀, hb₀k, hek]⟩
        · have : 0 < keyCount p k := by
            rw [if_neg hek] at hpos; omega
          obtain ⟨b, hb, hbk⟩ := (hiff k).mpr this
          exact ⟨(if b.key == e.key then setFlag b else b),
            List.mem_map_of_mem _ hb, by rw [hkeymap b, hbk]⟩
    · intro b' hb'
      obtain ⟨b, hb, rfl⟩ := List.mem_map.mp hb'
      obtain ⟨e₀, hfind, hfields⟩ := hfirst b hb
      refine ⟨e₀, ?_, ?_⟩
      · rw [List.find?_append, hkeymap b, hfind]
        rfl
      · split <;> exact hfields
    · intro b' hb'
      obtain ⟨b, hb, rfl⟩ := List.mem_map.mp hb'
      rw [hkeymap b, keyCount_append_single]
      by_cases hk : b.key = e.key
      · rw [if_pos (by simpa using hk), setFlag]
        have h1 : 0 < keyCount p b.key := (hiff b.key).mp ⟨b, hb, rfl⟩
        have h2 : (if e.key = b.key then 1 else 0) = 1 := if_pos hk.symm
        rw [h2]
        simp only
        symm
        simpa using (by omega : 2 ≤ keyCount p b.key + 1)
      · rw [if_neg (by simpa using hk), if_neg (fun hc => hk hc.symm)]
        simpa using hflag b hb
  · rw [mergeStep, if_neg hmem]
    have hnot : ∀ b ∈ acc, b.key ≠ e.key := by
      intro b hb hc
      exact hmem (List.any_eq_true.mpr ⟨b, hb, by simpa using hc⟩)
    have hcnt0 : keyCount p e.key = 0 := by
      by_contra hc
      obtain ⟨b, hb, hbk⟩ := (hiff e.key).mpr (Nat.pos_of_ne_zero hc)
      exact hnot b hb hbk
    have hnewkey : (⟨e.src, e.dst, e.raw_label, e.status, false⟩ : BEdge).key
        = e.key := rfl
    refine ⟨?_, ?_, ?_, ?_⟩
    · rw [List.map_append]
      simp only [List.map_cons, List.map_nil]
      rw [List.nodup_append]
      refine ⟨hnd, List.nodup_singleton _, ?_⟩
      intro k hk₁ hk₂
      simp only [hnewkey, List.mem_singleton] at hk₂
      obtain ⟨b, hb, hbk⟩ := List.mem_map.mp hk₁
      exact hnot b hb (by rw [hbk, hk₂])
    · intro k
      rw [keyCount_append_single]
      by_cases hek : e.key = k
      · subst hek
        rw [if_pos rfl]
        constructor
        · intro _; omega
        · intro _
          exact ⟨⟨e.src, e.dst, e.raw_label, e.status, false⟩,
            List.mem_append_right _ (List.mem_singleton_self _), hnewkey⟩
      · rw [if_neg hek]
        constructor
        · rintro ⟨b, hb, hbk⟩
          rcases List.mem_append.mp hb with hb | hb
          · have := (hiff k).mp ⟨b, hb, hbk⟩; omega
          · simp only [List.mem_singleton] at hb
            subst hb
            exact absurd (hnewkey.symm.trans hbk) hek
        · intro hpos
          obtain ⟨b, hb, hbk⟩ := (hiff k).mpr (by omega)
          exact ⟨b, List.mem_append_left _ hb, hbk⟩
    · intro b hb
      rcases List.mem_append.mp hb with hb | hb
      · obtain ⟨e₀, hfind, hfields⟩ := hfirst b hb
        refine ⟨e₀, ?_, hfields⟩
        rw [List.find?_append, hfind]
        rfl
      · simp only [List.mem_singleton] at hb
        subst hb
        refine ⟨e, ?_, rfl, rfl, rfl, rfl⟩
        rw [List.find?_append]
        have hpnone : p.find? (fun x => x.key == (⟨e.src, e.dst, e.raw_label,
            e.status, false⟩ : BEdge).key) = none := by
          rw [List.find?_eq_none]
          intro x hx hc
          have hxk : x.key = e.key := by rw [hnewkey] at hc; simpa using hc
          have : 0 < keyCount p e.key :=
            (keyCount_pos_iff p e.key).mpr ⟨x, hx, hxk⟩
          omega
        rw [hpnone]
        simp [hnewkey]
    · intro b hb
      rcases List.mem_append.mp hb with hb | hb
      · rw [keyCount_append_single,
          if_neg (fun hc : e.key = b.key => hnot b hb hc.symm)]
        simpa using hflag b hb
      · simp only [List.mem_singleton] at hb
        subst hb
        rw [keyCount_append_single, hnewkey, hcnt0, if_pos rfl]
        simp

theorem mergeInv_foldl (es : List Edge) :
    ∀ (p : List Edge) (acc : List BEdge), MergeInv p acc →
      MergeInv (p ++ es) (es.foldl mergeStep acc) := by
  induction es with
  | nil => intro p acc h; simpa using h
  | cons e es ih =>
    intro p acc h
    have h2 := ih (p ++ [e]) (mergeStep acc e) (mergeStep_inv e h)
    rw [List.append_assoc] at h2
    simpa using h2

theorem merge_inv (edges : List Edge) :
    MergeInv edges (merge_bidirectional_edges edges) := by
  have h0 : MergeInv [] [] := by
    refine ⟨List.nodup_nil, ?_, ?_, ?_⟩ <;> simp [keyCount]
  have := mergeInv_foldl edges [] [] h0
  simpa [merge_bidirectional_edges] using this

/-- C2: `merge_bidirectional_edges` keeps each unordered node pair exactly
once (the merged keys are duplicate-free and cover exactly the input pairs);
the surviving record is the first-discovered edge for its pair, keeping its
own orientation, raw label and status; a pair with two opposite-direction
edges is flagged bidirectional; and a pair seen only once stays unflagged. -/
theorem c2_merge_bidirectional_spec (edges : List Edge) :
    ((merge_bidirectional_edges edges).map BEdge.key).Nodup ∧
    (∀ k : ℕ × ℕ, (∃ b ∈ merge_bidirectional_edges edges, b.key = k) ↔
      (∃ e ∈ edges, e.key = k)) ∧
    (∀ b ∈ merge_bidirectional_edges edges, ∃ e,
      edges.find? (fun x => x.key == b.key) = some e ∧ b.src = e.src ∧
      b.dst = e.dst ∧ b.raw_label = e.raw_label ∧ b.status = e.status) ∧
    (∀ b ∈ merge_bidirectional_edges edges, ∀ e₁ ∈ edges, ∀ e₂ ∈ edges,
      e₁.key = b.key → e₂.src = e₁.dst → e₂.dst = e₁.src → e₁.src ≠ e₁.dst →
      b.bidirectional = true) ∧
    (∀ b ∈ merge_bidirectional_edges edges,
      keyCount edges b.key = 1 → b.bidirectional = false) := by
  obtain ⟨hnd, hiff, hfirst, hflag⟩ := merge_inv edges
  refine ⟨hnd, ?_, hfirst, ?_, ?_⟩
  · intro k
    rw [hiff k, keyCount_pos_iff]
  · intro b hb e₁ he₁ e₂ he₂ hk hsrc hdst hne
    have hk₂ : e₂.key = b.key := by
      rw [← hk, Edge.key, Edge.key, hsrc, hdst, ekey_comm]
    have hne' : e₁ ≠ e₂ := by
      intro hc
      rw [hc] at hsrc
      exact hne (by rw [← hdst, hc])
    have h2 : 2 ≤ keyCount edges b.key :=
      keyCount_two_le edges b.key he₁ he₂ hk hk₂ hne'
    rw [hflag b hb]
    simpa using h2
  · intro b hb h1
    rw [hflag b hb, h1]
    simp

/-- Witness for C2: on input `[(1→2), (2→1)]` the surviving record is the
first edge, flagged bidirectional. -/
theorem c2_witness :
    (⟨1, 2, [], 'E', true⟩ : BEdge) ∈
      merge_bidirectional_edges [⟨1, 2, [], 'E'⟩, ⟨2, 1, [], 'S'⟩] ∧
    (⟨1, 2, [], 'E', true⟩ : BEdge).bidirectional = true := by
  refine ⟨by decide, ?_⟩
  exact (c2_merge_bidirectional_spec
      [⟨1, 2, [], 'E'⟩, ⟨2, 1, [], 'S'⟩]).2.2.2.1
    ⟨1, 2, [], 'E', true⟩ (by decide)
    ⟨1, 2, [], 'E'⟩ (by decide) ⟨2, 1, [], 'S'⟩ (by decide)
    (by decide) (by decide) (by decide) (by decide)

/-- Every level `bfs_levels` returns is non-empty. -/
theorem bfs_levels_nonempty (start : ℕ) (depth : ℤ) (oa ia : ℕ → Finset ℕ)
    (dir : Direction) :
    ∀ l ∈ (bfs_levels start depth oa ia dir).1, l.Nonempty := by
  intro l hl
  rw [bfs_levels_eq] at hl
  rcases List.mem_cons.mp hl with rfl | hl
  · exact ⟨start, Finset.mem_singleton_self start⟩
  · exact Finset.nonempty_iff_ne_empty.mpr
      (bfsLoop_levels_nonempty (neighbors oa ia dir) depth.toNat _ _ l hl)

/-- C4: with a positive cap, every band produced by `split_levels` has at
most `cap` nodes; the node→band map agrees with band positions (indices are
assigned sequentially from 0 in level order); appending level lists
concatenates their band lists, so one level's chunks never interleave with
another level's bands; and on a band holding ids `{3,1,4,5}` with cap `2`
the split is deterministic and chunks in ascending id order: exactly the
consecutive sub-bands `{1,3}` and `{4,5}`. -/
theorem c4_split_levels_spec (cap : ℕ) (levels : List (Finset ℕ))
    (hcap : 0 < cap) :
    (∀ b ∈ (split_levels cap levels).1, b.card ≤ cap) ∧
    (∀ n i : ℕ, (split_levels cap levels).2 n = some i →
      ∃ hi : i < (split_levels cap levels).1.length,
        n ∈ (split_levels cap levels).1.get ⟨i, hi⟩) ∧
    (∀ l₁ l₂ : List (Finset ℕ), (split_levels cap (l₁ ++ l₂)).1 =
      (split_levels cap l₁).1 ++ (split_levels cap l₂).1) ∧
    ((split_levels 2 [({3, 1, 4, 5} : Finset ℕ)]).1 = [{1, 3}, {4, 5}] ∧
      (split_levels 2 [({3, 1, 4, 5} : Finset ℕ)]).2 1 = some 0 ∧
      (split_levels 2 [({3, 1, 4, 5} : Finset ℕ)]).2 3 = some 0 ∧
      (split_levels 2 [({3, 1, 4, 5} : Finset ℕ)]).2 4 = some 1 ∧
      (split_levels 2 [({3, 1, 4, 5} : Finset ℕ)]).2 5 = some 1) := by
  refine ⟨?_, ?_, ?_, by decide, by decide, by decide, by decide, by decide⟩
  · intro b hb
    obtain ⟨chunkl, hchunkl, hbmem⟩ := List.mem_flatten.mp hb
    obtain ⟨g, -, rfl⟩ := List.mem_map.mp hchunkl
    obtain ⟨c, hc, rfl⟩ := List.mem_map.mp hbmem
    exact (List.toFinset_card_le c).trans
      (chunkList_length_le cap (sortFinset g) c hc)
  · intro n i hni
    have hni' : lastBandIdx n ((split_levels cap levels).1) 0 = some i := hni
    obtain ⟨t, ht, hit, hmem⟩ := lastBandIdx_some n _ 0 i hni'
    have : i = t := by omega
    subst this
    exact ⟨ht, hmem⟩
  · intro l₁ l₂
    show (List.map _ (l₁ ++ l₂)).flatten = _
    rw [List.map_append, List.flatten_append]
    rfl

/-- Witness for C4 at cap `2`: the band `{1,3}` is produced and respects
the cap. -/
theorem c4_witness :
    (0 < 2) ∧
    ({1, 3} : Finset ℕ) ∈ (split_levels 2 [({3, 1, 4, 5} : Finset ℕ)]).1 ∧
    ({1, 3} : Finset ℕ).card ≤ 2 :=
  ⟨by norm_num, by decide,
    (c4_split_levels_spec 2 [({3, 1, 4, 5} : Finset ℕ)] (by norm_num)).1
      {1, 3} (by decide)⟩

/-- When every level is non-empty and fits within the cap, partitioning
leaves the level list unchanged. -/
theorem split_levels_bands_eq (cap' : ℕ) :
    ∀ levels : List (Finset ℕ), (∀ g ∈ levels, g.Nonempty) →
      (∀ g ∈ levels, g.card ≤ cap' + 1) →
      (split_levels (cap' + 1) levels).1 = levels := by
  intro levels
  induction levels with
  | nil => intro _ _; rfl
  | cons g gs ih =>
    intro hne hcard
    show (List.map (fun h => (chunkList (cap' + 1) (sortFinset h)).map
      List.toFinset) (g :: gs)).flatten = g :: gs
    rw [List.map_cons, List.flatten_cons]
    rw [chunkList_of_le cap' (sortFinset g)
      (sortFinset_ne_nil g (hne g (List.mem_cons_self g gs)))
      (by rw [length_sortFinset]; exact hcard g (List.mem_cons_self g gs))]
    simp only [List.map_cons, List.map_nil, List.singleton_append,
      sortFinset_toFinset]
    have htail := ih (fun x hx => hne x (List.mem_cons_of_mem g hx))
      (fun x hx => hcard x (List.mem_cons_of_mem g hx))
    rw [show (split_levels (cap' + 1) gs).1 =
      (List.map (fun h => (chunkList (cap' + 1) (sortFinset h)).map
        List.toFinset) gs).flatten from rfl] at htail
    rw [htail]

/-- C5 (amended): if, in addition, no BFS level exceeds the partition cap
(so no level is split), then a node's band index after partitioning is its
BFS distance: a walk of that exact length exists and no shorter one does,
and the node is in the visited set.  (The unamended claim fails when a
level overflows the cap: see the counterexample.) -/
theorem c5_band_index_is_distance (start : ℕ) (depth : ℤ)
    (oa ia : ℕ → Finset ℕ) (dir : Direction) (cap : ℕ) (hcap : 0 < cap)
    (hsmall : ∀ g ∈ (bfs_levels start depth oa ia dir).1, g.card ≤ cap) :
    ∀ n b : ℕ,
      (split_levels cap (bfs_levels start depth oa ia dir).1).2 n = some b →
      n ∈ (bfs_levels start depth oa ia dir).2 ∧
      hasWalk (neighbors oa ia dir) start b n ∧
      ∀ j < b, ¬ hasWalk (neighbors oa ia dir) start j n := by
  intro n b hnb
  obtain ⟨cap', rfl⟩ : ∃ c, cap = c + 1 := ⟨cap - 1, by omega⟩
  have heq := split_levels_bands_eq cap' (bfs_levels start depth oa ia dir).1
    (bfs_levels_nonempty start depth oa ia dir) hsmall
  have hnb' : lastBandIdx n
      ((split_levels (cap' + 1) (bfs_levels start depth oa ia dir).1).1) 0 =
      some b := hnb
  rw [heq] at hnb'
  obtain ⟨t, ht, hbt, hmem⟩ := lastBandIdx_some n _ 0 b hnb'
  have hbt' : b = t := by omega
  subst hbt'
  rw [bfs_levels_get start depth oa ia dir b ht] at hmem
  have hwalk := (mem_sphere_iff_walk (neighbors oa ia dir) start b n).mp hmem
  refine ⟨?_, hwalk.1, hwalk.2⟩
  rw [bfs_levels_visited]
  exact ball_mono (neighbors oa ia dir) start (by omega)
    (sphere_subset_ball (neighbors oa ia dir) start b hmem)

/-- C5 counterexample: with the pipeline's cap of 20, a start node with 21
out-neighbors puts node 21 in band 2, yet node 21 is at BFS distance 1 —
there is no walk of length 2 to it, refuting the unamended claim. -/
def c5edges : List Edge := (List.range 21).map (fun i => ⟨0, i + 1, [], 'E'⟩)

theorem c5_counterexample :
    (split_levels 20 (bfs_levels 0 1 (build_adjacency c5edges).1
      (build_adjacency c5edges).2 Direction.both).1).2 21 = some 2 ∧
    (21 : ℕ) ∈ (bfs_levels 0 1 (build_adjacency c5edges).1
      (build_adjacency c5edges).2 Direction.both).2 ∧
    ¬ hasWalk (neighbors (build_adjacency c5edges).1
      (build_adjacency c5edges).2 Direction.both) 0 2 21 := by
  refine ⟨by decide, by decide, ?_⟩
  rw [← mem_ballExact_iff]
  decide

/-- Witness for C5 (amended) on the graph `0 → 1` with cap 20. -/
theorem c5_witness :
    (0 < 20) ∧
    (∀ g ∈ (bfs_levels 0 1 wOut wIn Direction.out).1, g.card ≤ 20) ∧
    (1 ∈ (bfs_levels 0 1 wOut wIn Direction.out).2 ∧
      hasWalk (neighbors wOut wIn Direction.out) 0 1 1 ∧
      ∀ j < 1, ¬ hasWalk (neighbors wOut wIn Direction.out) 0 j 1) := by
  refine ⟨by norm_num, by decide, ?_⟩
  exact c5_band_index_is_distance 0 1 wOut wIn Direction.out 20 (by norm_num)
    (by decide) 1 1 (by decide)

/-- The concrete input text of the end-to-end scenario (C8). -/
def c8text : List Char :=
  ("0 [label=\"Start\"]; 1 [label=\"A\"]; 2 [label=\"B\"]; 0 -> 1 [label=\"E\"]; 1 -> 2 [label=\"S|note\"]; 2 -> 0 [label=\"D\"]").toList

/-- C8: on the scenario input with start node 0, hop budget 1 and direction
`both`, the pipeline (parse → adjacency → BFS → partition with the dot
path's cap of 20) visits `{0, 1, 2}` with `band(0) = 0`, `band(1) = 1` and
`band(2) = 1` — node 2 reached directly through the reverse edge `2 → 0`. -/
theorem c8_end_to_end_scenario :
    (bfs_levels 0 1 (build_adjacency (parse_source_text c8text).2.1).1
      (build_adjacency (parse_source_text c8text).2.1).2 Direction.both).2 =
      {0, 1, 2} ∧
    (split_levels 20 (bfs_levels 0 1
      (build_adjacency (parse_source_text c8text).2.1).1
      (build_adjacency (parse_source_text c8text).2.1).2
      Direction.both).1).2 0 = some 0 ∧
    (split_levels 20 (bfs_levels 0 1
      (build_adjacency (parse_source_text c8text).2.1).1
      (build_adjacency (parse_source_text c8text).2.1).2
      Direction.both).1).2 1 = some 1 ∧
    (split_levels 20 (bfs_levels 0 1
      (build_adjacency (parse_source_text c8text).2.1).1
      (build_adjacency (parse_source_text c8text).2.1).2
      Direction.both).1).2 2 = some 1 := by
  refine ⟨by decide, by decide, by decide, by decide⟩

/-- C9: in the layered output with cross-level de-emphasis enabled (and the
default `level_edges_only = false`), every edge whose endpoints' band
indices differ by exactly 2 is rendered with its ordering constraint
relaxed (`constraint=false`) and a minimum-length hint of 2, regardless of
status; and every edge with an endpoint outside the visited set is dropped
silently, whatever the other options are. -/
theorem c9_cross_level_and_dropped_edges (level_index : ℕ → Option ℕ)
    (included_nodes : Finset ℕ) (el : ELabel) (use_ports : Bool)
    (tailp headp : Char) (e : BEdge) :
    (∀ a b : ℕ, level_index e.src = some a → level_index e.dst = some b →
      e.src ∈ included_nodes → e.dst ∈ included_nodes →
      ((b : ℤ) - (a : ℤ)).natAbs = 2 →
      ∃ attrs : List Attr,
        edgeAttrs level_index included_nodes el use_ports tailp headp
          false true e = some (e.src, e.dst, attrs) ∧
        Attr.constraintFalse ∈ attrs ∧ Attr.minlen 2 ∈ attrs) ∧
    ((e.src ∉ included_nodes ∨ e.dst ∉ included_nodes) →
      ∀ lvl_only deemph : Bool,
        edgeAttrs level_index included_nodes el use_ports tailp headp
          lvl_only deemph e = none) := by
  constructor
  · intro a b ha hb hsrc hdst hdelta
    unfold edgeAttrs
    rw [if_pos (And.intro hsrc hdst), ha, hb]
    simp [Option.map_some', hdelta]
  · intro h lvl_only deemph
    unfold edgeAttrs
    rw [if_neg (fun hc => h.elim (fun h1 => h1 hc.1) (fun h2 => h2 hc.2))]

/-- Witness for C9: a status-`S` edge `0 → 2` between bands 0 and 2 gets
`constraint=false` and `minlen=2`; an edge from the excluded node 5 is
dropped. -/
theorem c9_witness :
    (∃ attrs : List Attr,
      edgeAttrs (fun n => some n) {0, 2} ELabel.status false 'n' 's'
        false true ⟨0, 2, [], 'S', false⟩ = some (0, 2, attrs) ∧
      Attr.constraintFalse ∈ attrs ∧ Attr.minlen 2 ∈ attrs) ∧
    edgeAttrs (fun n => some n) {0, 2} ELabel.status false 'n' 's'
      false true ⟨5, 2, [], 'E', false⟩ = none := by
  constructor
  · exact (c9_cross_level_and_dropped_edges (fun n => some n) {0, 2}
      ELabel.status false 'n' 's' ⟨0, 2, [], 'S', false⟩).1 0 2 rfl rfl
      (by decide) (by decide) (by decide)
  · exact (c9_cross_level_and_dropped_edges (fun n => some n) {0, 2}
      ELabel.status false 'n' 's' ⟨5, 2, [], 'E', false⟩).2
      (Or.inl (by decide)) false true
